import Mathlib

/-!
Verification of the `ts-hdsk` repository (hierarchical deterministic symmetric
keys). The repository contains two generations of the implementation:

* the current generation (package `@iacobus/hd`, files `key.ts`, `hkdf`-free,
  parametric over an injected hash adapter `CHash` from `@noble/hashes`), and
* the legacy generation (package `ts-symmetric-hd`, files `hdKey.ts`,
  `hkdf.ts`, the first halves of `utils.ts` / `types.ts` / `path.ts`, fixed to
  Blake2b).

Bytes are modelled as `List Nat` (each entry a byte value), JavaScript numbers
used as indices as `Int`, and functions that `throw` as `Except JsError _`.
The current generation lives in namespace `Hdsk`, the legacy one in namespace
`SymmetricHD`.
-/

/-- JavaScript error values, tagged by their class, carrying the message.
`range` is `RangeError`, `grammar` is `SyntaxError`, `typed` is `TypeError`,
and `plain` is the untyped `Error` used throughout the legacy generation. -/
inductive JsError where
  | range (msg : String)
  | grammar (msg : String)
  | typed (msg : String)
  | plain (msg : String)
deriving DecidableEq, Repr

/-- JavaScript `ToUint32` on an integral number (the `x >>> 0` coercion):
the representative of `x` modulo `2^32` in `[0, 2^32)`. -/
def toUint32 (x : Int) : Nat := (x % (2 ^ 32 : Int)).toNat

/-- Byte encoding of an ASCII string, as produced by `TextEncoder`/UTF-8 on
the ASCII constants used in the sources. -/
def asciiBytes (s : String) : List Nat := s.data.map Char.toNat

/--
The hash adapter capability (`CHash` of `@noble/hashes`), an external
collaborator injected by the caller: a one-shot digest of `outputLen` bytes
and an HMAC keyed digest of `outputLen` bytes, together with the output-length
laws those primitives guarantee.
-/
structure CHash where
  outputLen : Nat
  digest : List Nat → List Nat
  hmac : List Nat → List Nat → List Nat
  digest_len : ∀ m, (digest m).length = outputLen
  hmac_len : ∀ k m, (hmac k m).length = outputLen

namespace Noble

/-- Modelled from the dependency `@noble/hashes` `hkdf` (RFC 5869) extract
step: `PRK = HMAC(salt, ikm)`. -/
def extract (h : CHash) (ikm salt : List Nat) : List Nat :=
  h.hmac salt ikm

/-- Modelled from the dependency `@noble/hashes` `hkdf` (RFC 5869) expand
loop: while fewer than `L` output bytes are accumulated, set
`T = HMAC(prk, T ‖ info ‖ byte(i+1))` and append it. `fuel` bounds the number
of iterations (each iteration adds at least one byte, so `fuel = L`
suffices). -/
def expandGo (h : CHash) (prk info : List Nat) (L : Nat) :
    Nat → List Nat → List Nat → Nat → List Nat
  | 0, _, okm, _ => okm
  | fuel + 1, t, okm, i =>
    if okm.length < L then
      let t2 := h.hmac prk (t ++ info ++ [(i + 1) % 256])
      expandGo h prk info L fuel t2 (okm ++ t2) (i + 1)
    else okm

/-- Modelled from the dependency `@noble/hashes` `hkdf` (RFC 5869) expand
step: run the block loop and truncate to exactly `L` bytes. -/
def expand (h : CHash) (prk info : List Nat) (L : Nat) : List Nat :=
  (expandGo h prk info L L [] [] 0).take L

/-- Modelled from the dependency `@noble/hashes` `hkdf`: extract-then-expand. -/
def hkdf (h : CHash) (ikm salt info : List Nat) (L : Nat) : List Nat :=
  expand h (extract h ikm salt) info L

end Noble

namespace Hdsk

/-- `HDKey` of `key.ts`: key, chain code, depth, fingerprint. -/
structure HDKey where
  key : List Nat
  code : List Nat
  depth : Nat
  fingerprint : List Nat
deriving DecidableEq, Repr

/-- `calcSalt` of `utils.ts` (current generation): a 16 byte salt from a hash,
message, and optional context info. When info is present it is expanded by a
one-shot digest and truncated to 16 bytes to serve as the HMAC key, otherwise
16 zero bytes; the HMAC is taken over `msg ‖ "SALT"` and truncated to 16. -/
def calcSalt (h : CHash) (msg : List Nat) (info : Option (List Nat)) : List Nat :=
  let key := match info with
    | some i => (h.digest i).take 16
    | none => List.replicate 16 0
  (h.hmac key (msg ++ [83, 65, 76, 84])).take 16

/-- `encodeInt` of `utils.ts` (current generation): a 32-bit integer as 4
big-endian bytes. The sources apply it to an index already coerced by
`>>> 0`, so the argument here is the coerced `Nat`; the JS shifts reapply
`ToUint32`, hence the outer `% 2 ^ 32`. -/
def encodeInt (int : Nat) : List Nat :=
  let u := int % 2 ^ 32
  [u / 2 ^ 24 % 256, u / 2 ^ 16 % 256, u / 2 ^ 8 % 256, u % 256]

/-- `strToIndex` of `utils.ts` (current generation): hash the string, read a
big-endian 32-bit integer from the first 4 digest bytes, reduce mod `2^31`.
(The `DataView` read assumes the digest has at least 4 bytes, which every
adapter used with the library satisfies; missing bytes read as 0 here.) -/
def strToIndex (h : CHash) (str : String) : Nat :=
  let sum := h.digest (asciiBytes str)
  let value := sum.getD 0 0 * 2 ^ 24 + sum.getD 1 0 * 2 ^ 16 +
    sum.getD 2 0 * 2 ^ 8 + sum.getD 3 0
  value % 0x80000000

/-- `fingerprint` of `utils.ts` (current generation): the HMAC of the child
key under the parent key, truncated to 16 bytes. -/
def fingerprint (h : CHash) (parent child : List Nat) : List Nat :=
  (h.hmac parent child).take 16

/-- `deriveMaster` of `key.ts`: master key from a hash and secret. -/
def deriveMaster (h : CHash) (secret : List Nat) : HDKey :=
  let salt := calcSalt h secret none
  let ikm := Noble.hkdf h secret salt (asciiBytes "MASTER") 64
  let master := ikm.take 32
  let code := (ikm.drop 32).take 32
  let fp := fingerprint h secret master
  { key := master, code := code, depth := 0, fingerprint := fp }

/-- `deriveChild` of `key.ts`: child key from a hash, parent key, and index.
The index is first coerced with `index >>> 0`. -/
def deriveChild (h : CHash) (master : HDKey) (index : Int) : HDKey :=
  let i := toUint32 index
  let info1 := encodeInt i
  let salt := calcSalt h master.code (some info1)
  let info2 := asciiBytes ("CHILD" ++ Nat.repr i)
  let ikm := Noble.hkdf h master.code salt info2 64
  let child := ikm.take 32
  let code := (ikm.drop 32).take 32
  let fp := fingerprint h master.key child
  { key := child, code := code, depth := master.depth + 1, fingerprint := fp }

/-- `deriveNode` of `key.ts`: starts from `deriveChild(h, master, path[0])`
and folds `deriveChild` over the remaining indices. On an empty path the
JavaScript access `path[0]` yields `undefined`, which `index >>> 0` inside
`deriveChild` coerces to 0, so an empty path derives the child at index 0. -/
def deriveNode (h : CHash) (master : HDKey) (path : List Int) : HDKey :=
  match path with
  | [] => deriveChild h master 0
  | i :: rest => rest.foldl (deriveChild h) (deriveChild h master i)

/-- `lineage` of `key.ts`: extract the stored child fingerprint `fp1`,
recompute `fp2` from the master and child keys, raise a `RangeError` unless
both are 16 bytes, then compare them byte-wise with a constant-time
XOR/OR accumulation. -/
def lineage (h : CHash) (child master : HDKey) : Except JsError Bool :=
  let fp1 := child.fingerprint
  let fp2 := fingerprint h master.key child.key
  if fp1.length ≠ 16 ∨ fp2.length ≠ 16 then
    .error (.range "fingerprints for lineage verification must be 16 bytes each")
  else
    .ok (((List.range 16).foldl
      (fun result i => result ||| (fp1.getD i 0 ^^^ fp2.getD i 0)) 0) == 0)

end Hdsk

instance {ε α : Type} [DecidableEq ε] [DecidableEq α] : DecidableEq (Except ε α)
  | .error e1, .error e2 =>
    if h : e1 = e2 then isTrue (by rw [h]) else isFalse (by intro hc; cases hc; exact h rfl)
  | .error _, .ok _ => isFalse (by intro hc; cases hc)
  | .ok _, .error _ => isFalse (by intro hc; cases hc)
  | .ok a1, .ok a2 =>
    if h : a1 = a2 then isTrue (by rw [h]) else isFalse (by intro hc; cases hc; exact h rfl)

/-- JavaScript whitespace accepted by `parseInt`/`trim` on the inputs that
occur here (the full JS class also has exotic Unicode spaces, never used by
this library or its tests). -/
def jsSpace (c : Char) : Bool :=
  c = ' ' ∨ c = '\t' ∨ c = '\n' ∨ c = '\r'

/-- Fuel-bounded splitting loop: emit the accumulated piece whenever the
(non-empty) separator is a prefix of the remaining input. Fuel
`s.length + 1` always suffices, since every step consumes a character. -/
def jsSplitGo (sep : List Char) : Nat → List Char → List Char → List (List Char)
  | 0, s, acc => [acc.reverse ++ s]
  | fuel + 1, s, acc =>
    match s with
    | [] => [acc.reverse]
    | c :: rest =>
      if sep.isPrefixOf (c :: rest) then
        acc.reverse :: jsSplitGo sep fuel ((c :: rest).drop sep.length) []
      else
        jsSplitGo sep fuel rest (c :: acc)

/-- JavaScript `s.split(sep)` for a non-empty string separator and no limit
(the only form the sources use). -/
def jsSplit (sep s : String) : List String :=
  (jsSplitGo sep.data (s.data.length + 1) s.data []).map (fun cs => String.mk cs)

/-- JavaScript `s.trim()` on the whitespace that occurs here (`jsSpace`). -/
def jsTrim (s : String) : String :=
  String.mk (((s.data.dropWhile jsSpace).reverse.dropWhile jsSpace).reverse)

/-- The `for` loop shared by both schema parsers: parse each segment with
`f`, propagating the first thrown error, collecting the parsed pairs. -/
def schemaLoop (f : String → Except JsError (String × String)) :
    List String → Except JsError (List (String × String))
  | [] => .ok []
  | seg :: rest =>
    match f seg with
    | .error e => .error e
    | .ok p =>
      match schemaLoop f rest with
      | .error e => .error e
      | .ok ps => .ok (p :: ps)

/-- Hexadecimal digit, as in the regex `[0-9a-fA-F]`. -/
def hexDigit (c : Char) : Bool :=
  c.isDigit ∨ ('a' ≤ c ∧ c ≤ 'f') ∨ ('A' ≤ c ∧ c ≤ 'F')

/-- Numeric value of a hexadecimal digit. -/
def hexVal (c : Char) : Nat :=
  if c.isDigit then c.toNat - 48
  else if 'a' ≤ c ∧ c ≤ 'f' then c.toNat - 87
  else if 'A' ≤ c ∧ c ≤ 'F' then c.toNat - 55
  else 0

/-- Value of a string of decimal digits. -/
def decVal (ds : List Char) : Nat :=
  ds.foldl (fun acc c => 10 * acc + (c.toNat - 48)) 0

/-- Value of a string of hexadecimal digits. -/
def hexValList (ds : List Char) : Nat :=
  ds.foldl (fun acc c => 16 * acc + hexVal c) 0

/-- JavaScript `parseInt(s)` with no radix argument, on the magnitude part:
a leading `0x`/`0X` selects radix 16, otherwise radix 10; the longest digit
prefix is taken; no digits at all gives `NaN` (`none`). -/
def parseIntCore (cs : List Char) : Option Nat :=
  match cs with
  | '0' :: x :: rest =>
    if x = 'x' ∨ x = 'X' then
      let ds := rest.takeWhile hexDigit
      if ds.isEmpty then none else some (hexValList ds)
    else
      some (decVal (('0' :: x :: rest).takeWhile Char.isDigit))
  | _ =>
    let ds := cs.takeWhile Char.isDigit
    if ds.isEmpty then none else some (decVal ds)

/-- JavaScript `parseInt(s)` with no radix argument: skip leading whitespace,
read an optional sign, then parse per `parseIntCore`; `none` models `NaN`.
(IEEE-754 rounding of values beyond `2^53` is not modelled: every affected
value is far outside the accepted index range `0..2^31-1`, so `getIndex`
rejects it either way.) -/
def parseIntJs (s : String) : Option Int :=
  let cs := s.data.dropWhile jsSpace
  match cs with
  | '-' :: rest => (parseIntCore rest).map (fun n => -(n : Int))
  | '+' :: rest => (parseIntCore rest).map (fun n => (n : Int))
  | _ => (parseIntCore cs).map (fun n => (n : Int))

namespace Hdsk

/-- `getIndex` of `utils.ts` (current generation): an in-range integer index
from a hash, index string, and schema type. The source wraps `parseInt` and
`strToIndex` in `try`/`catch`, but neither ever throws, so the `catch`
branches (including the `str` fallback of the `any` case) are unreachable;
a failed numeric parse instead surfaces as `NaN` and is caught by the final
range check. -/
def getIndex (h : CHash) (index ty : String) : Except JsError Nat :=
  if ¬(ty = "num" ∨ ty = "str" ∨ ty = "any") then
    .error (.typed ("type \"" ++ ty ++ "\" invalid for index"))
  else
    let i : Option Int :=
      if ty = "num" then parseIntJs index
      else if ty = "str" then some (strToIndex h index)
      else parseIntJs index
    match i with
    | some v =>
      if 0 ≤ v ∧ v ≤ 0x7FFFFFFF then .ok v.toNat
      else .error (.range ("out of range index \"" ++ toString v ++ "\""))
    | none => .error (.range "out of range index \"NaN\"")

/-- One segment of a schema string after the root: split on `":"`, trim both
parts, require both non-empty and the type in `{str, num, any}`. A missing
type (no colon) behaves as the falsy `undefined`, like the empty string. -/
def parseSchemaSegment (seg : String) : Except JsError (String × String) :=
  let parts := (jsSplit ":" seg).map jsTrim
  let label := parts.getD 0 ""
  let ty := parts.getD 1 ""
  if label = "" ∨ ty = "" then
    .error (.grammar ("invalid segment in schema, \"" ++ seg ++ "\""))
  else if ¬(ty = "str" ∨ ty = "num" ∨ ty = "any") then
    .error (.typed ("invalid type \"" ++ ty ++ "\" for label \"" ++ label ++ " in schema\""))
  else .ok (label, ty)

/-- `newSchema` of the current generation (`path.ts` of `ts-hdsk`): split the
schema string on `" / "`, reject more than 256 segments with a `RangeError`,
require the root segment `"m"`, then parse each remaining segment. -/
def newSchema (str : String) : Except JsError (List (String × String)) :=
  let segments := jsSplit " / " str
  if segments.length > 256 then
    .error (.range ("derivation path schema cannot exceed 256 segments, got \"" ++
      toString segments.length ++ "\""))
  else if segments.getD 0 "" ≠ "m" then
    .error (.grammar ("root segment in schema must be designated by \"m\", got \"" ++
      segments.getD 0 "" ++ "\""))
  else
    schemaLoop parseSchemaSegment (segments.drop 1)

end Hdsk

namespace SymmetricHD

/-- The external Blake2b primitive (`@noble/hashes` `blake2b`), to which the
legacy generation is fixed: `digest data key dkLen` is the (keyed, when
`key ≠ []`) digest of `data` at `dkLen` bytes, with its output-length law. -/
structure Blake2b where
  digest : List Nat → List Nat → Nat → List Nat
  digest_len : ∀ d k n, (digest d k n).length = n

/-- `Input` of the legacy `utils.ts`: string or byte-array input. -/
inductive Input where
  | str (s : String)
  | bytes (b : List Nat)
deriving DecidableEq, Repr

/-- `isHex` of the legacy `utils.ts`: even length and matching
`/^[0-9a-fA-F]+$/` (which requires at least one character). -/
def isHex (s : String) : Bool :=
  s.length % 2 = 0 ∧ s.length ≠ 0 ∧ s.data.all hexDigit

/-- UTF-8 encoding of one Unicode code point. -/
def utf8Char (c : Nat) : List Nat :=
  if c < 0x80 then [c]
  else if c < 0x800 then [0xC0 + c / 64, 0x80 + c % 64]
  else if c < 0x10000 then [0xE0 + c / 4096, 0x80 + c / 64 % 64, 0x80 + c % 64]
  else [0xF0 + c / 262144, 0x80 + c / 4096 % 64, 0x80 + c / 64 % 64, 0x80 + c % 64]

/-- `utf8ToBytes` of the legacy `utils.ts` (`TextEncoder.encode`). -/
def utf8ToBytes (s : String) : List Nat :=
  s.data.flatMap (fun c => utf8Char c.toNat)

/-- `hexToBytes` (`@noble/hashes`): decode pairs of hex digits to bytes. -/
def hexToBytes : List Char → List Nat
  | c1 :: c2 :: rest => (16 * hexVal c1 + hexVal c2) :: hexToBytes rest
  | _ => []

/-- `strToBytes` of the legacy `utils.ts`: hex-decode when the string looks
hexadecimal, otherwise UTF-8 encode. -/
def strToBytes (s : String) : List Nat :=
  if isHex s then hexToBytes s.data else utf8ToBytes s

/-- `toBytes` of the legacy `utils.ts`: bytes from string or byte input. -/
def toBytes : Input → List Nat
  | .str s => strToBytes s
  | .bytes b => b

/-- `calcSalt` of the legacy `utils.ts`: a Blake2b MAC of the secret keyed by
the label `"symmetric_hd/salt"` at 16 bytes, returned as `label ‖ mac`
(17 + 16 = 33 bytes in total). -/
def calcSalt (B : Blake2b) (secret : List Nat) : List Nat :=
  let label := toBytes (.str "symmetric_hd/salt")
  let mac := B.digest secret label 16
  label ++ mac

/-- `isNumber` of the legacy `utils.ts`: `/^\d+$/`. -/
def isNumber (s : String) : Bool :=
  s.length ≠ 0 ∧ s.data.all Char.isDigit

/-- `isString` of the legacy `utils.ts`: `/^[a-zA-Z\-]+$/`. -/
def isString (s : String) : Bool :=
  s.length ≠ 0 ∧ s.data.all (fun c => c.isAlpha ∨ c = '-')

/-- `strToIndex` of the legacy `utils.ts`: a 32 byte unkeyed Blake2b hash of
the UTF-8 string, big-endian 32-bit value of the first 4 bytes, reduced
mod `2^31`. -/
def strToIndex (B : Blake2b) (str : String) : Nat :=
  let hash := B.digest (utf8ToBytes str) [] 32
  let value := hash.getD 0 0 * 2 ^ 24 + hash.getD 1 0 * 2 ^ 16 +
    hash.getD 2 0 * 2 ^ 8 + hash.getD 3 0
  value % 0x80000000

/-- `getIndex` of the legacy `utils.ts`: type-enforced index from a string.
`num` requires a pure digit string, `str` a pure alphabetic string, `any`
tries `num` first and falls back to `str`; the final range check accepts
`0..2^31-1`. (`parseInt` on a string that passed `isNumber` is its exact
decimal value; IEEE-754 rounding beyond `2^53` is not modelled, and every
affected value is rejected by the range check either way.) -/
def getIndex (B : Blake2b) (index ty : String) : Except JsError Nat :=
  if ¬(ty = "num" ∨ ty = "str" ∨ ty = "any") then
    .error (.plain ("invalid type, \"" ++ ty ++ "\""))
  else
    let i : Except JsError Nat :=
      if ty = "num" then
        if ¬isNumber index then
          .error (.plain ("invalid number index, \"" ++ index ++ "\""))
        else .ok (decVal index.data)
      else if ty = "str" then
        if ¬isString index then
          .error (.plain ("invalid string index, \"" ++ index ++ "\""))
        else .ok (strToIndex B index)
      else
        if isNumber index then .ok (decVal index.data)
        else if isString index then .ok (strToIndex B index)
        else .error (.plain ("invalid index, \"" ++ index ++ "\""))
    match i with
    | .error e => .error e
    | .ok v =>
      if v ≤ 0x7FFFFFFF then .ok v
      else .error (.plain ("out of range index, \"" ++ toString v ++ "\""))

/-- `encodeIndex` of the legacy `utils.ts`: a 32-bit integer as 4 big-endian
bytes; each JS shift applies the `ToUint32` coercion to the raw number. -/
def encodeIndex (i : Int) : List Nat :=
  let u := toUint32 i
  [u / 2 ^ 24 % 256, u / 2 ^ 16 % 256, u / 2 ^ 8 % 256, u % 256]

/-- `concatBytes` of the legacy `utils.ts`. -/
def concatBytes (a b : List Nat) : List Nat := a ++ b

/-- Offset-threading loop of `splitIkm`. -/
def splitIkmGo (bytes : List Nat) : List Nat → Nat → List (List Nat)
  | [], _ => []
  | len :: rest, offset =>
    ((bytes.drop offset).take len) :: splitIkmGo bytes rest (offset + len)

/-- `splitIkm` of the legacy `utils.ts`: split input key material into slices
of the given sizes. -/
def splitIkm (bytes : List Nat) (size : List Nat) : List (List Nat) :=
  splitIkmGo bytes size 0

/-- `mac_digest` of the legacy `hkdf.ts`: Blake2b in MAC (keyed) mode at 64
bytes. -/
def mac_digest (B : Blake2b) (key data : List Nat) : List Nat :=
  B.digest data key 64

/-- `hkdf_extract` of the legacy `hkdf.ts`: MAC of the IKM keyed by the salt,
a 64-byte zero salt when absent. -/
def hkdf_extract (B : Blake2b) (ikm : List Nat) (salt : Option (List Nat)) : List Nat :=
  mac_digest B (salt.getD (List.replicate 64 0)) ikm

/-- Fuel-bounded loop of `hkdf_expand`: while the accumulated OKM is shorter
than `length`, increment the counter `i`, set
`t = mac_digest(prk, t ‖ info ‖ byte(i))` and append `t`. Each iteration adds
a 64-byte block, so `fuel = length` always suffices; the counter byte wraps
mod 256 as a `Uint8Array` write does. -/
def hkdf_expandGo (B : Blake2b) (prk info : List Nat) (length : Nat) :
    Nat → List Nat → List Nat → Nat → List Nat
  | 0, _, okm, _ => okm
  | fuel + 1, t, okm, i =>
    if okm.length < length then
      let t2 := mac_digest B prk (t ++ info ++ [(i + 1) % 256])
      hkdf_expandGo B prk info length fuel t2 (okm ++ t2) (i + 1)
    else okm

/-- `hkdf_expand` of the legacy `hkdf.ts`: run the block loop starting from
an empty block and counter 0, then truncate the OKM to exactly `length`
bytes (`length` defaults to 32 in the source). -/
def hkdf_expand (B : Blake2b) (prk : List Nat) (info : Option (List Nat))
    (length : Nat := 32) : List Nat :=
  (hkdf_expandGo B prk (info.getD []) length length [] [] 0).take length

/-- `hkdf` of the legacy `hkdf.ts`: extract then expand. -/
def hkdf (B : Blake2b) (ikm : List Nat) (salt info : Option (List Nat))
    (length : Nat := 32) : List Nat :=
  hkdf_expand B (hkdf_extract B ikm salt) info length

/-- `fingerprint` of the legacy `utils.ts`: HKDF-expand the parent key with
the domain label `"symmetric_hd/fingerprint"` into a 32-byte MAC key, then
return the 16-byte keyed Blake2b MAC of the child key. -/
def fingerprint (B : Blake2b) (parent child : List Nat) : List Nat :=
  let salt := calcSalt B parent
  let info := toBytes (.str "symmetric_hd/fingerprint")
  let key := hkdf B parent (some salt) (some info) 32
  B.digest child key 16

/-- `HDKey` of the legacy `types.ts`: key, chain code, depth, cumulative
path string, fingerprint. -/
structure HDKey where
  key : List Nat
  code : List Nat
  depth : Nat
  path : String
  fingerprint : List Nat
deriving DecidableEq, Repr

/-- `verifyFp` of the legacy `utils.ts`: recompute the fingerprint and
compare 16 byte positions with an XOR/OR accumulation. There is no length
check; a JS read past the end of a `Uint8Array` yields `undefined`, which
the `^` operator coerces to 0, modelled by `getD _ 0`. -/
def verifyFp (B : Blake2b) (child parent : HDKey) : Bool :=
  let fp1 := child.fingerprint
  let fp2 := fingerprint B parent.key child.key
  ((List.range 16).foldl
    (fun result i => result ||| (fp1.getD i 0 ^^^ fp2.getD i 0)) 0) == 0

/-- `MasterKey` construction of the legacy `hdKey.ts`: HKDF of the secret
with the legacy salt and the `"symmetric_hd/master"` label, split 32/32 into
key and chain code, fingerprinted against the secret, at depth 0, path `"m"`. -/
def masterKey (B : Blake2b) (secret : List Nat) : HDKey :=
  let salt := calcSalt B secret
  let info := toBytes (.str "symmetric_hd/master")
  let ikm := hkdf B secret (some salt) (some info) 64
  let parts := splitIkm ikm [32, 32]
  let master := parts.getD 0 []
  let code := parts.getD 1 []
  let fp := fingerprint B secret master
  { key := master, code := code, depth := 0, path := "m", fingerprint := fp }

/-- `ChildKey` construction of the legacy `hdKey.ts`: salt is
`parent.key ‖ encodeIndex(index)`, info the `"symmetric_hd/child"` label,
HKDF of the parent chain code split 32/32, fingerprint of the child key
against the parent key, depth one deeper, path extended by the index. -/
def childKey (B : Blake2b) (parent : HDKey) (index : Int) : HDKey :=
  let salt := concatBytes parent.key (encodeIndex index)
  let info := toBytes (.str "symmetric_hd/child")
  let ikm := hkdf B parent.code (some salt) (some info) 64
  let parts := splitIkm ikm [32, 32]
  let child := parts.getD 0 []
  let code := parts.getD 1 []
  let fp := fingerprint B parent.key child
  { key := child, code := code, depth := parent.depth + 1,
    path := parent.path ++ "/" ++ toString index, fingerprint := fp }

/-- `deriveHdKey` of the legacy `hdKey.ts`: start from
`parent.deriveChild(path[0])` and fold child derivation over the rest. On an
empty path `path[0]` is `undefined`, which is neither a number nor a string,
so `deriveChild` throws `Error("invalid index")`. -/
def deriveHdKey (B : Blake2b) (parent : HDKey) (path : List Int) :
    Except JsError HDKey :=
  match path with
  | [] => .error (.plain "invalid index")
  | i :: rest => .ok (rest.foldl (childKey B) (childKey B parent i))

/-- One non-root segment of the legacy `PathSchema` constructor: identical
splitting and checks to the current generation, with untyped `Error`s. -/
def parseSchemaSegment (seg : String) : Except JsError (String × String) :=
  let parts := (jsSplit ":" seg).map jsTrim
  let label := parts.getD 0 ""
  let ty := parts.getD 1 ""
  if label = "" ∨ ty = "" then
    .error (.plain ("invalid segment, \"" ++ seg ++ "\""))
  else if ¬(ty = "str" ∨ ty = "num" ∨ ty = "any") then
    .error (.plain ("invalid type \"" ++ ty ++ "\" for label \"" ++ label ++ "\""))
  else .ok (label, ty)

/-- The legacy `PathSchema` constructor of `path.ts`: split on `" / "`,
reject more than 256 segments, require root `"m"`, parse each remaining
segment; all failures are untyped `Error`s. -/
def pathSchema (str : String) : Except JsError (List (String × String)) :=
  let segments := jsSplit " / " str
  if segments.length > 256 then
    .error (.plain ("derivation path schema cannot exceed 256 segments, got \"" ++
      toString segments.length ++ "\""))
  else if segments.getD 0 "" ≠ "m" then
    .error (.plain ("root segment must be designated by \"m\", got \"" ++
      segments.getD 0 "" ++ "\""))
  else
    schemaLoop parseSchemaSegment (segments.drop 1)

end SymmetricHD

/-- A concrete hash adapter (a stand-in supplied the way callers inject
`sha256`): 32-byte outputs determined by the input lengths. -/
def tH : CHash where
  outputLen := 32
  digest := fun m => List.replicate 32 ((m.length + 1) % 256)
  hmac := fun k m => List.replicate 32 ((2 * k.length + 3 * m.length + 5) % 256)
  digest_len := by intro m; simp
  hmac_len := by intro k m; simp

/-- A concrete Blake2b stand-in for evaluating the legacy generation. -/
def tB : SymmetricHD.Blake2b where
  digest := fun d k n => List.replicate n ((d.length + 2 * k.length + 7) % 256)
  digest_len := by intro d k n; simp

/-- A concrete master key of the current generation. -/
def mK : Hdsk.HDKey := Hdsk.deriveMaster tH [0, 0, 0, 0]

/-- A concrete master key of the legacy generation. -/
def mKOld : SymmetricHD.HDKey := SymmetricHD.masterKey tB [0, 0, 0, 0]

/-- A malformed legacy HD key whose fingerprint is empty rather than
16 bytes. -/
def badChild : SymmetricHD.HDKey :=
  { key := [1, 2, 3], code := [], depth := 1, path := "m/0", fingerprint := [] }

/-- A well-formed schema string with exactly 256 segments: the root plus 255
`"a:num"` entries. -/
def okSchemaStr : String :=
  ⟨'m' :: (List.replicate 255 (" / ".data ++ "a:num".data)).flatten⟩

/-- A schema string with 257 segments (the root-and-label text is irrelevant:
the segment count is checked first). -/
def badSchemaStr : String :=
  ⟨(List.replicate 256 (" / ".data ++ ([] : List Char))).flatten⟩

theorem jsSplitGo_fuel_irrel (sep : List Char) (hsep : sep ≠ []) :
    ∀ (fuel₁ : Nat) (s acc : List Char) (fuel₂ : Nat),
      s.length < fuel₁ → s.length < fuel₂ →
      jsSplitGo sep fuel₁ s acc = jsSplitGo sep fuel₂ s acc := by
  intro fuel₁
  induction fuel₁ with
  | zero => intro s acc fuel₂ h1 h2; omega
  | succ f ih =>
    intro s acc fuel₂ h1 h2
    match fuel₂, h2 with
    | f2 + 1, h2 =>
      cases s with
      | nil => simp [jsSplitGo]
      | cons c rest =>
        have hsl : 1 ≤ sep.length := by
          cases sep with
          | nil => exact absurd rfl hsep
          | cons x xs => simp
        simp only [jsSplitGo]
        split
        · have hd : ((c :: rest).drop sep.length).length ≤ rest.length := by
            simp [List.length_drop]
            omega
          exact congrArg _ (ih _ _ f2 (by simp at h1 ⊢; omega) (by simp at h2 ⊢; omega))
        · exact ih _ _ f2 (by simp at h1 ⊢; omega) (by simp at h2 ⊢; omega)


theorem jsSplitGo_sep_head (ch : Char) (st rest acc : List Char) (fuel : Nat) :
    jsSplitGo (ch :: st) (fuel + 1) ((ch :: st) ++ rest) acc =
      acc.reverse :: jsSplitGo (ch :: st) fuel rest [] := by
  have hpre : (ch :: st).isPrefixOf (ch :: (st ++ rest)) = true :=
    List.isPrefixOf_iff_prefix.mpr (List.prefix_append (ch :: st) rest)
  have hdrop : List.drop (ch :: st).length (ch :: (st ++ rest)) = rest :=
    List.drop_left (ch :: st) rest
  simp only [List.cons_append, jsSplitGo, hpre, if_true, hdrop]

theorem jsSplitGo_cons_ne (ch : Char) (st : List Char) (c : Char) (hc : c ≠ ch)
    (s acc : List Char) (fuel : Nat) :
    jsSplitGo (ch :: st) (fuel + 1) (c :: s) acc =
      jsSplitGo (ch :: st) fuel s (c :: acc) := by
  have hpre : (ch :: st).isPrefixOf (c :: s) = false := by
    simp [List.isPrefixOf]
    intro he
    exact absurd he.symm hc
  simp only [jsSplitGo, hpre, Bool.false_eq_true, if_false]

theorem jsSplitGo_word (ch : Char) (st : List Char) (w : List Char)
    (hw : ∀ c ∈ w, c ≠ ch) :
    ∀ (s acc : List Char) (fuel : Nat),
      jsSplitGo (ch :: st) (w.length + fuel + 1) (w ++ s) acc =
        jsSplitGo (ch :: st) (fuel + 1) s (w.reverse ++ acc) := by
  induction w with
  | nil => intro s acc fuel; simp
  | cons c w ih =>
    intro s acc fuel
    have hc : c ≠ ch := hw c (by simp)
    have hw2 : ∀ d ∈ w, d ≠ ch := fun d hd => hw d (by simp [hd])
    have harith : (c :: w).length + fuel + 1 = (w.length + fuel + 1) + 1 := by
      simp
      omega
    rw [harith, List.cons_append, jsSplitGo_cons_ne ch st c hc, ih hw2 s (c :: acc) fuel]
    congr 1
    simp

theorem jsSplitGo_repeat (ch : Char) (st seg : List Char)
    (hseg : ∀ c ∈ seg, c ≠ ch) :
    ∀ (n : Nat) (acc : List Char) (fuel : Nat),
      (List.replicate n ((ch :: st) ++ seg)).flatten.length < fuel →
      jsSplitGo (ch :: st) fuel (List.replicate n ((ch :: st) ++ seg)).flatten acc =
        acc.reverse :: List.replicate n seg := by
  intro n
  induction n with
  | zero =>
    intro acc fuel hf
    match fuel, hf with
    | f + 1, _ => simp [jsSplitGo]
  | succ n ih =>
    intro acc fuel hf
    rw [List.replicate_succ, List.flatten_cons] at hf ⊢
    match fuel, hf with
    | f + 1, hf =>
      rw [List.append_assoc, jsSplitGo_sep_head]
      set tail := (List.replicate n ((ch :: st) ++ seg)).flatten with htail
      have hlt : (seg ++ tail).length < f := by
        simp only [List.length_append, List.length_cons] at hf ⊢
        omega
      rw [jsSplitGo_fuel_irrel (ch :: st) (by simp) f (seg ++ tail) []
        (seg.length + tail.length + 1) hlt
        (by simp only [List.length_append]; omega)]
      rw [jsSplitGo_word ch st seg hseg tail [] tail.length]
      rw [ih (seg.reverse ++ []) (tail.length + 1) (by omega)]
      simp [List.replicate_succ]

theorem jsSplit_okSchemaStr :
    jsSplit " / " okSchemaStr = "m" :: List.replicate 255 "a:num" := by
  have hseg : ∀ c ∈ "a:num".data, c ≠ ' ' := by decide
  show (jsSplitGo (' ' :: "/ ".data)
      (('m' :: (List.replicate 255 ((' ' :: "/ ".data) ++ "a:num".data)).flatten).length + 1)
      ('m' :: (List.replicate 255 ((' ' :: "/ ".data) ++ "a:num".data)).flatten) []).map
      (fun cs => String.mk cs) = "m" :: List.replicate 255 "a:num"
  rw [show ('m' :: (List.replicate 255 ((' ' :: "/ ".data) ++ "a:num".data)).flatten).length + 1
      = ((List.replicate 255 ((' ' :: "/ ".data) ++ "a:num".data)).flatten.length + 1) + 1
      from by rw [List.length_cons]]
  rw [jsSplitGo_cons_ne ' ' "/ ".data 'm' (by decide)]
  rw [jsSplitGo_repeat ' ' "/ ".data "a:num".data hseg 255 ['m'] _ (by omega)]
  simp only [List.reverse_cons, List.reverse_nil, List.nil_append, List.map_cons,
    List.map_replicate]

theorem jsSplit_badSchemaStr_length :
    (jsSplit " / " badSchemaStr).length = 257 := by
  show ((jsSplitGo (' ' :: "/ ".data)
      ((List.replicate 256 ((' ' :: "/ ".data) ++ ([] : List Char))).flatten.length + 1)
      (List.replicate 256 ((' ' :: "/ ".data) ++ ([] : List Char))).flatten []).map
      (fun cs => String.mk cs)).length = 257
  rw [jsSplitGo_repeat ' ' "/ ".data [] (by simp) 256 [] _ (by omega)]
  simp only [List.reverse_nil, List.map_cons, List.map_replicate, List.length_cons,
    List.length_replicate]

theorem schemaLoop_replicate (f : String → Except JsError (String × String))
    (x : String) (y : String × String) (hx : f x = .ok y) :
    ∀ n, schemaLoop f (List.replicate n x) = .ok (List.replicate n y) := by
  intro n
  induction n with
  | zero => simp [schemaLoop]
  | succ n ih => simp [List.replicate_succ, schemaLoop, hx, ih]


theorem Noble.expandGo_length_ge (h : CHash) (hpos : 1 ≤ h.outputLen)
    (prk info : List Nat) (L : Nat) :
    ∀ (fuel : Nat) (t okm : List Nat) (i : Nat),
      min L (okm.length + fuel) ≤ (Noble.expandGo h prk info L fuel t okm i).length := by
  intro fuel
  induction fuel with
  | zero =>
    intro t okm i
    simp only [Noble.expandGo, Nat.add_zero]
    exact Nat.min_le_right L okm.length
  | succ n ih =>
    intro t okm i
    rw [Noble.expandGo]
    split
    · refine le_trans ?_ (ih _ _ _)
      have hlen : okm.length + (n + 1) ≤ (okm ++ h.hmac prk (t ++ info ++ [(i + 1) % 256])).length + n := by
        simp [List.length_append, h.hmac_len]
        omega
      exact min_le_min (le_refl L) hlen
    · rename_i hge
      have : L ≤ okm.length := Nat.le_of_not_lt hge
      exact le_trans (Nat.min_le_left _ _) this

theorem Noble.expand_length (h : CHash) (hpos : 1 ≤ h.outputLen)
    (prk info : List Nat) (L : Nat) :
    (Noble.expand h prk info L).length = L := by
  have hge : L ≤ (Noble.expandGo h prk info L L [] [] 0).length := by
    have := Noble.expandGo_length_ge h hpos prk info L L [] [] 0
    simpa using this
  simp [Noble.expand, List.length_take]
  omega

theorem Noble.hkdf_length (h : CHash) (hpos : 1 ≤ h.outputLen)
    (ikm salt info : List Nat) (L : Nat) :
    (Noble.hkdf h ikm salt info L).length = L :=
  Noble.expand_length h hpos _ info L


theorem Hdsk.calcSalt_length (h : CHash) (hlen : 16 ≤ h.outputLen)
    (msg : List Nat) (info : Option (List Nat)) :
    (Hdsk.calcSalt h msg info).length = 16 := by
  cases info <;>
    simp only [Hdsk.calcSalt, List.length_take, h.hmac_len] <;> omega

theorem Hdsk.fingerprint_length (h : CHash) (hlen : 16 ≤ h.outputLen)
    (parent child : List Nat) :
    (Hdsk.fingerprint h parent child).length = 16 := by
  simp only [Hdsk.fingerprint, List.length_take, h.hmac_len]
  omega

theorem Hdsk.deriveMaster_key_eq (h : CHash) (secret : List Nat) :
    (Hdsk.deriveMaster h secret).key =
      (Noble.hkdf h secret (Hdsk.calcSalt h secret none) (asciiBytes "MASTER") 64).take 32 :=
  rfl

theorem Hdsk.deriveMaster_code_eq (h : CHash) (secret : List Nat) :
    (Hdsk.deriveMaster h secret).code =
      ((Noble.hkdf h secret (Hdsk.calcSalt h secret none) (asciiBytes "MASTER") 64).drop 32).take 32 :=
  rfl

theorem Hdsk.deriveMaster_fp_eq (h : CHash) (secret : List Nat) :
    (Hdsk.deriveMaster h secret).fingerprint =
      Hdsk.fingerprint h secret (Hdsk.deriveMaster h secret).key :=
  rfl

theorem Hdsk.deriveChild_key_eq (h : CHash) (P : Hdsk.HDKey) (i : Int) :
    (Hdsk.deriveChild h P i).key =
      (Noble.hkdf h P.code
        (Hdsk.calcSalt h P.code (some (Hdsk.encodeInt (toUint32 i))))
        (asciiBytes ("CHILD" ++ Nat.repr (toUint32 i))) 64).take 32 :=
  rfl

theorem Hdsk.deriveChild_code_eq (h : CHash) (P : Hdsk.HDKey) (i : Int) :
    (Hdsk.deriveChild h P i).code =
      ((Noble.hkdf h P.code
        (Hdsk.calcSalt h P.code (some (Hdsk.encodeInt (toUint32 i))))
        (asciiBytes ("CHILD" ++ Nat.repr (toUint32 i))) 64).drop 32).take 32 :=
  rfl

theorem Hdsk.deriveChild_fp_eq (h : CHash) (P : Hdsk.HDKey) (i : Int) :
    (Hdsk.deriveChild h P i).fingerprint =
      Hdsk.fingerprint h P.key (Hdsk.deriveChild h P i).key :=
  rfl

theorem Hdsk.deriveMaster_lengths (h : CHash) (hlen : 16 ≤ h.outputLen)
    (secret : List Nat) :
    (Hdsk.deriveMaster h secret).key.length = 32 ∧
    (Hdsk.deriveMaster h secret).code.length = 32 ∧
    (Hdsk.deriveMaster h secret).fingerprint.length = 16 := by
  have h1 : 1 ≤ h.outputLen := by omega
  refine ⟨?_, ?_, ?_⟩
  · rw [Hdsk.deriveMaster_key_eq, List.length_take, Noble.hkdf_length h h1]
    decide
  · rw [Hdsk.deriveMaster_code_eq, List.length_take, List.length_drop,
      Noble.hkdf_length h h1]
    decide
  · rw [Hdsk.deriveMaster_fp_eq]
    exact Hdsk.fingerprint_length h hlen _ _

theorem Hdsk.deriveChild_lengths (h : CHash) (hlen : 16 ≤ h.outputLen)
    (P : Hdsk.HDKey) (i : Int) :
    (Hdsk.deriveChild h P i).key.length = 32 ∧
    (Hdsk.deriveChild h P i).code.length = 32 ∧
    (Hdsk.deriveChild h P i).fingerprint.length = 16 := by
  have h1 : 1 ≤ h.outputLen := by omega
  refine ⟨?_, ?_, ?_⟩
  · rw [Hdsk.deriveChild_key_eq, List.length_take, Noble.hkdf_length h h1]
    decide
  · rw [Hdsk.deriveChild_code_eq, List.length_take, List.length_drop,
      Noble.hkdf_length h h1]
    decide
  · rw [Hdsk.deriveChild_fp_eq]
    exact Hdsk.fingerprint_length h hlen _ _

theorem foldl_or_xor_self (g : Nat → Nat) :
    ∀ (L : List Nat) (a : Nat),
      L.foldl (fun r i => r ||| (g i ^^^ g i)) a = a := by
  intro L
  induction L with
  | nil => intro a; rfl
  | cons x xs ih => intro a; simp [List.foldl_cons, Nat.xor_self, ih]

theorem Hdsk.lineage_ok_of_eq (h : CHash) (c m : Hdsk.HDKey)
    (hfp : c.fingerprint = Hdsk.fingerprint h m.key c.key)
    (hlen : c.fingerprint.length = 16) :
    Hdsk.lineage h c m = .ok true := by
  simp only [Hdsk.lineage]
  rw [if_neg]
  · rw [← hfp]
    rw [foldl_or_xor_self (fun i => c.fingerprint.getD i 0) (List.range 16) 0]
    rfl
  · push_neg
    exact ⟨hlen, by rw [← hfp]; exact hlen⟩

theorem SymmetricHD.hkdf_expandGo_length_ge (B : SymmetricHD.Blake2b)
    (prk info : List Nat) (L : Nat) :
    ∀ (fuel : Nat) (t okm : List Nat) (i : Nat),
      min L (okm.length + fuel) ≤
        (SymmetricHD.hkdf_expandGo B prk info L fuel t okm i).length := by
  intro fuel
  induction fuel with
  | zero =>
    intro t okm i
    simp only [SymmetricHD.hkdf_expandGo, Nat.add_zero]
    exact Nat.min_le_right L okm.length
  | succ n ih =>
    intro t okm i
    rw [SymmetricHD.hkdf_expandGo]
    split
    · refine le_trans ?_ (ih _ _ _)
      have hlen : okm.length + (n + 1) ≤
          (okm ++ SymmetricHD.mac_digest B prk (t ++ info ++ [(i + 1) % 256])).length + n := by
        simp [List.length_append, SymmetricHD.mac_digest, B.digest_len]
        omega
      exact min_le_min (le_refl L) hlen
    · rename_i hge
      have : L ≤ okm.length := Nat.le_of_not_lt hge
      exact le_trans (Nat.min_le_left _ _) this

theorem SymmetricHD.hkdf_expand_length (B : SymmetricHD.Blake2b)
    (prk : List Nat) (info : Option (List Nat)) (L : Nat) :
    (SymmetricHD.hkdf_expand B prk info L).length = L := by
  have hge : L ≤ (SymmetricHD.hkdf_expandGo B prk (info.getD []) L L [] [] 0).length := by
    have := SymmetricHD.hkdf_expandGo_length_ge B prk (info.getD []) L L [] [] 0
    simpa using this
  simp only [SymmetricHD.hkdf_expand, List.length_take]
  omega

theorem toUint32_emod (i : Int) : toUint32 (i % (2 ^ 32 : Int)) = toUint32 i := by
  unfold toUint32
  rw [Int.emod_emod_of_dvd i dvd_rfl]

theorem Hdsk.deriveChild_congr (h : CHash) (P : Hdsk.HDKey) (i j : Int)
    (hij : toUint32 i = toUint32 j) :
    Hdsk.deriveChild h P i = Hdsk.deriveChild h P j := by
  unfold Hdsk.deriveChild
  rw [hij]

theorem Hdsk.foldl_deriveChild_depth (h : CHash) :
    ∀ (l : List Int) (k : Hdsk.HDKey),
      (l.foldl (Hdsk.deriveChild h) k).depth = k.depth + l.length := by
  intro l
  induction l with
  | nil => intro k; simp
  | cons i rest ih =>
    intro k
    rw [List.foldl_cons, ih]
    have hstep : (Hdsk.deriveChild h k i).depth = k.depth + 1 := rfl
    rw [hstep]
    simp
    omega

theorem SymmetricHD.foldl_childKey_depth (B : SymmetricHD.Blake2b) :
    ∀ (l : List Int) (k : SymmetricHD.HDKey),
      (l.foldl (SymmetricHD.childKey B) k).depth = k.depth + l.length := by
  intro l
  induction l with
  | nil => intro k; simp
  | cons i rest ih =>
    intro k
    rw [List.foldl_cons, ih]
    have hstep : (SymmetricHD.childKey B k i).depth = k.depth + 1 := rfl
    rw [hstep]
    simp
    omega

/-- C1 (amended): for every root HDKey and every NON-EMPTY derivation path,
`deriveNode` (and the legacy `deriveHdKey`) returns the left fold of
`deriveChild` over the path starting from the root, and the result's depth is
`root.depth + path.length`. (On the empty path the claim fails: `path[0]` is
`undefined`, so `deriveNode` derives the child at index 0 and `deriveHdKey`
throws — see the counterexample.) -/
theorem c1_deriveNode_fold (h : CHash) (B : SymmetricHD.Blake2b)
    (root : Hdsk.HDKey) (rootL : SymmetricHD.HDKey) (path : List Int)
    (hne : path ≠ []) :
    Hdsk.deriveNode h root path = path.foldl (Hdsk.deriveChild h) root ∧
    (Hdsk.deriveNode h root path).depth = root.depth + path.length ∧
    SymmetricHD.deriveHdKey B rootL path =
      .ok (path.foldl (SymmetricHD.childKey B) rootL) ∧
    (path.foldl (SymmetricHD.childKey B) rootL).depth =
      rootL.depth + path.length := by
  match path, hne with
  | i :: rest, _ =>
    have hfold : Hdsk.deriveNode h root (i :: rest) =
        (i :: rest).foldl (Hdsk.deriveChild h) root := rfl
    refine ⟨hfold, ?_, rfl, ?_⟩
    · rw [hfold]
      exact Hdsk.foldl_deriveChild_depth h (i :: rest) root
    · exact SymmetricHD.foldl_childKey_depth B (i :: rest) rootL

/-- C1 witness: the amended statement instantiated at a concrete hash,
root keys, and the path `[1, 2]`. -/
theorem c1_witness :
    (([1, 2] : List Int) ≠ []) ∧
    (Hdsk.deriveNode tH mK [1, 2] =
        ([1, 2] : List Int).foldl (Hdsk.deriveChild tH) mK ∧
      (Hdsk.deriveNode tH mK [1, 2]).depth = mK.depth + ([1, 2] : List Int).length ∧
      SymmetricHD.deriveHdKey tB mKOld [1, 2] =
        .ok (([1, 2] : List Int).foldl (SymmetricHD.childKey tB) mKOld) ∧
      (([1, 2] : List Int).foldl (SymmetricHD.childKey tB) mKOld).depth =
        mKOld.depth + ([1, 2] : List Int).length) :=
  ⟨by decide, c1_deriveNode_fold tH tB mK mKOld [1, 2] (by decide)⟩

/-- C1 counterexample: on the empty path the original claim fails. A fold
over the empty list would return the root at its own depth, but `deriveNode`
returns a key of depth `root.depth + 1` (it derives the child at index 0 from
the coerced `undefined`), and the legacy `deriveHdKey` throws
`Error("invalid index")`. -/
theorem c1_empty_path_cex :
    (Hdsk.deriveNode tH mK []).depth ≠ mK.depth + ([] : List Int).length ∧
    SymmetricHD.deriveHdKey tB mKOld [] = .error (.plain "invalid index") :=
  ⟨by decide, rfl⟩

/-- C2: for every parent HDKey `P` and index `i`, the lineage check of
`C = deriveChild(h, P, i)` against `P` returns `true`, because the
fingerprint stored in `C` is recomputed identically from `(P.key, C.key)`
(stated for adapters with at least 16 output bytes, as every adapter used
with the library has). -/
theorem c2_lineage_sound (h : CHash) (P : Hdsk.HDKey) (i : Int)
    (hlen : 16 ≤ h.outputLen) :
    Hdsk.lineage h (Hdsk.deriveChild h P i) P = .ok true := by
  apply Hdsk.lineage_ok_of_eq h (Hdsk.deriveChild h P i) P
    (Hdsk.deriveChild_fp_eq h P i)
  rw [Hdsk.deriveChild_fp_eq]
  exact Hdsk.fingerprint_length h hlen _ _

/-- C2 witness: lineage of the child at index 5 of a concrete master key. -/
theorem c2_witness :
    16 ≤ tH.outputLen ∧
    Hdsk.lineage tH (Hdsk.deriveChild tH mK 5) mK = .ok true :=
  ⟨by decide, c2_lineage_sound tH mK 5 (by decide)⟩

/-- C3: the legacy Blake2b HKDF expand step returns exactly `length` bytes
for every PRK, info, and requested length (and so does the full
extract-then-expand `hkdf` for every ikm and salt); the definition is the
loop of the claim: `t` starts empty, the counter starts at 1, each round sets
`t = MAC(prk, t ‖ info ‖ byte(i))` and appends `t`, and the result is
truncated to exactly `length` bytes. -/
theorem c3_hkdf_expand_len (B : SymmetricHD.Blake2b) (prk ikm : List Nat)
    (salt info : Option (List Nat)) (L : Nat) :
    (SymmetricHD.hkdf_expand B prk info L).length = L ∧
    (SymmetricHD.hkdf B ikm salt info L).length = L :=
  ⟨SymmetricHD.hkdf_expand_length B prk info L,
   SymmetricHD.hkdf_expand_length B _ info L⟩

/-- C4 counterexample: the legacy `calcSalt` never returns 16 bytes — it
returns the 17-byte label `"symmetric_hd/salt"` concatenated with a 16-byte
MAC, 33 bytes in total, here at the concrete secret `[0]`. -/
theorem c4_calcSalt_cex : (SymmetricHD.calcSalt tB [0]).length ≠ 16 := by
  decide

/-- C4 (amended): the hash-parametric `calcSalt` of the current generation
returns exactly 16 bytes for every message and every optional context info
(for adapters with at least 16 output bytes); the legacy `calcSalt` instead
returns 33 bytes (label ‖ MAC). -/
theorem c4_calcSalt_len (h : CHash) (msg : List Nat) (info : Option (List Nat))
    (hlen : 16 ≤ h.outputLen) :
    (Hdsk.calcSalt h msg info).length = 16 :=
  Hdsk.calcSalt_length h hlen msg info

/-- C4 witness: a concrete 16-byte salt with context info present. -/
theorem c4_witness :
    16 ≤ tH.outputLen ∧ (Hdsk.calcSalt tH [1, 2] (some [3])).length = 16 :=
  ⟨by decide, c4_calcSalt_len tH [1, 2] (some [3]) (by decide)⟩

/-- C5: every HDKey produced by `deriveMaster` or `deriveChild` has a 32-byte
key, a 32-byte chain code, and a 16-byte fingerprint (for adapters with at
least 16 output bytes). -/
theorem c5_hdkey_invariants (h : CHash) (secret : List Nat) (P : Hdsk.HDKey)
    (i : Int) (hlen : 16 ≤ h.outputLen) :
    ((Hdsk.deriveMaster h secret).key.length = 32 ∧
     (Hdsk.deriveMaster h secret).code.length = 32 ∧
     (Hdsk.deriveMaster h secret).fingerprint.length = 16) ∧
    ((Hdsk.deriveChild h P i).key.length = 32 ∧
     (Hdsk.deriveChild h P i).code.length = 32 ∧
     (Hdsk.deriveChild h P i).fingerprint.length = 16) :=
  ⟨Hdsk.deriveMaster_lengths h hlen secret, Hdsk.deriveChild_lengths h hlen P i⟩

/-- C5 witness: the invariants at a concrete hash, secret, parent, index. -/
theorem c5_witness :
    16 ≤ tH.outputLen ∧
    (((Hdsk.deriveMaster tH []).key.length = 32 ∧
      (Hdsk.deriveMaster tH []).code.length = 32 ∧
      (Hdsk.deriveMaster tH []).fingerprint.length = 16) ∧
     ((Hdsk.deriveChild tH mK 7).key.length = 32 ∧
      (Hdsk.deriveChild tH mK 7).code.length = 32 ∧
      (Hdsk.deriveChild tH mK 7).fingerprint.length = 16)) :=
  ⟨by decide, c5_hdkey_invariants tH [] mK 7 (by decide)⟩

/-- C6 counterexample: the legacy lineage check `verifyFp` performs no length
check: at a malformed child whose stored fingerprint is empty (not 16 bytes)
it still returns a boolean (`false`) instead of raising. -/
theorem c6_verifyFp_cex :
    badChild.fingerprint.length ≠ 16 ∧
    SymmetricHD.verifyFp tB badChild mKOld = false :=
  ⟨by decide, by decide⟩

/-- C6 (amended): the current lineage check (`lineage` in `key.ts`) returns a
boolean if and only if both the stored child fingerprint and the recomputed
fingerprint are exactly 16 bytes, and otherwise signals a `RangeError`; the
legacy `verifyFp` performs no such check and always returns a boolean. -/
theorem c6_lineage_ok_iff (h : CHash) (c m : Hdsk.HDKey) :
    (∃ b, Hdsk.lineage h c m = .ok b) ↔
      (c.fingerprint.length = 16 ∧ (Hdsk.fingerprint h m.key c.key).length = 16) := by
  simp only [Hdsk.lineage]
  split
  · rename_i hcond
    constructor
    · rintro ⟨b, hb⟩
      cases hb
    · intro hh
      rcases hcond with hc | hc
      · exact absurd hh.1 hc
      · exact absurd hh.2 hc
  · rename_i hcond
    push_neg at hcond
    exact ⟨fun _ => hcond, fun _ => ⟨_, rfl⟩⟩

/-- C7: schema parsing fails with a range fault (`RangeError`) for every
schema string whose segment count exceeds 256 — in particular for a concrete
one with 257 segments — and a schema string with exactly 256 well-formed
segments (root plus 255 `label:type` entries) succeeds. -/
theorem c7_schema_boundary :
    (∀ s : String, 256 < (jsSplit " / " s).length →
      ∃ m, Hdsk.newSchema s = .error (.range m)) ∧
    (∃ m, Hdsk.newSchema badSchemaStr = .error (.range m)) ∧
    Hdsk.newSchema okSchemaStr = .ok (List.replicate 255 ("a", "num")) := by
  have huniv : ∀ s : String, 256 < (jsSplit " / " s).length →
      ∃ m, Hdsk.newSchema s = .error (.range m) := by
    intro s hs
    refine ⟨"derivation path schema cannot exceed 256 segments, got \"" ++
      toString (jsSplit " / " s).length ++ "\"", ?_⟩
    simp only [Hdsk.newSchema]
    rw [if_pos (by omega)]
  refine ⟨huniv, huniv badSchemaStr (by rw [jsSplit_badSchemaStr_length]; omega), ?_⟩
  simp only [Hdsk.newSchema]
  rw [jsSplit_okSchemaStr]
  rw [if_neg (by simp only [List.length_cons, List.length_replicate]; omega)]
  rw [if_neg (by simp only [List.getD_cons_zero]; exact fun hcon => hcon rfl)]
  show schemaLoop Hdsk.parseSchemaSegment (List.replicate 255 "a:num") = _
  exact schemaLoop_replicate Hdsk.parseSchemaSegment "a:num" ("a", "num") (by decide) 255

/-- C7 witness: the universal range-fault statement applied to the concrete
257-segment schema string. -/
theorem c7_witness :
    256 < (jsSplit " / " badSchemaStr).length ∧
    ∃ m, Hdsk.newSchema badSchemaStr = .error (.range m) :=
  ⟨by rw [jsSplit_badSchemaStr_length]; omega,
   c7_schema_boundary.1 badSchemaStr (by rw [jsSplit_badSchemaStr_length]; omega)⟩

/-- C8: intent vs. code for `num`-typed positions. The current `getIndex`
wraps `parseInt` in `try`/`catch`, but `parseInt` never throws: the
non-numeric segment `"alpha"` produces `NaN` and surfaces as a `RangeError`
(not the intended type fault, whose `TypeError` branch is unreachable), and
`"12abc"` is silently accepted as 12 instead of failing. The legacy
`getIndex` checks `/^\d+$/` first and rejects both, as the claim states. -/
theorem c8_num_parseInt_behavior :
    Hdsk.getIndex tH "alpha" "num" = .error (.range "out of range index \"NaN\"") ∧
    Hdsk.getIndex tH "12abc" "num" = .ok 12 ∧
    SymmetricHD.getIndex tB "alpha" "num" =
      .error (.plain "invalid number index, \"alpha\"") ∧
    SymmetricHD.getIndex tB "12abc" "num" =
      .error (.plain "invalid number index, \"12abc\"") :=
  ⟨by decide, by decide, by decide, by decide⟩

/-- C9: intent vs. code for `any`-typed positions. In the current `getIndex`
the `str` fallback of the `any` branch is unreachable (`parseInt` never
throws), so the non-numeric label `"alpha"` at an `any` position raises a
`RangeError` instead of resolving to the `str` index; under type `str` the
same label resolves to `strToIndex`. The legacy `getIndex` implements the
claimed fallback: `any` and `str` agree on `"alpha"`. -/
theorem c9_any_no_str_fallback :
    Hdsk.getIndex tH "alpha" "any" = .error (.range "out of range index \"NaN\"") ∧
    Hdsk.getIndex tH "alpha" "str" = .ok (Hdsk.strToIndex tH "alpha") ∧
    SymmetricHD.getIndex tB "alpha" "any" = SymmetricHD.getIndex tB "alpha" "str" ∧
    SymmetricHD.getIndex tB "alpha" "any" =
      .ok (SymmetricHD.strToIndex tB "alpha") :=
  ⟨by decide, by decide, by decide, by decide⟩

/-- C10: `deriveChild` never rejects an out-of-range index; it first coerces
the index with the unsigned 32-bit shift `i >>> 0`, so
`deriveChild h P i = deriveChild h P (i mod 2^32)`: index −1 derives the same
child as 4294967295, and `2^32 + 5` the same child as 5. -/
theorem c10_deriveChild_uint32 (h : CHash) (P : Hdsk.HDKey) :
    (∀ i : Int, Hdsk.deriveChild h P i = Hdsk.deriveChild h P (i % (2 ^ 32 : Int))) ∧
    Hdsk.deriveChild h P (-1) = Hdsk.deriveChild h P 4294967295 ∧
    Hdsk.deriveChild h P (2 ^ 32 + 5) = Hdsk.deriveChild h P 5 :=
  ⟨fun i => Hdsk.deriveChild_congr h P i (i % (2 ^ 32 : Int)) (toUint32_emod i).symm,
   Hdsk.deriveChild_congr h P (-1) 4294967295 (by decide),
   Hdsk.deriveChild_congr h P (2 ^ 32 + 5) 5 (by decide)⟩
